import Mathlib

/-!
Verification of the copy-recursive tree copier (index.js).

The development shallow-embeds the core of the repository:

* `getUniqueFileName` — the unique-name resolver,
* `copyItem` (split into the stat step, the tree walk `copyTree`, and the
  directory loop `processEntries`) — the recursive tree copier,
* `copy` / `runTask` / `runSources` — the task/source orchestration loop.

Modelling choices, all taken from the source:

* A path is its list of segments (`path.join dest name` is `dest ++ [name]`,
  `path.basename` is the last segment, `path.dirname` is `dropLast`).
* The destination filesystem is an association list from paths to entries;
  `fs.stat` is lookup (`none` records a stat miss), `fs.copyFile` is
  `FS.set`, recursive `fs.mkdir` is `FS.mkdirp`, and `fs.access` succeeding
  is `FS.stat` returning `some`.  This is the abstract filesystem contract
  the program consumes (stat-like existence+kind query, recursive directory
  creation, byte-level file copy).  Node additionally distinguishes an
  ENOENT miss from an ENOTDIR failure when a path component is occupied by
  a file; where that distinction is load-bearing (the fresh-destination
  copy path of the file branch), `statNode` and `copyFileItemNode` below
  refine the miss accordingly.
* The source region being walked is a static tree `FTree`; `fs.readdir`
  returns its entry list in order, and a missing source root is the `none`
  case of `copyItem`.  External concurrent mutation of the source during a
  run is out of scope, as the program itself assumes.
* JavaScript template interpolation of the counter is decimal notation,
  embedded as `decimalRepr`.
* Console logging carries the per-entry results; the `Outcome` type records
  exactly the events the program logs (Copied / Overwritten / Skipped /
  Renamed lines and the per-branch caught error), with the error message
  text abbreviated to a fixed descriptor per error kind.
-/

namespace CopyRec

/-- A filesystem path, as its list of segments. -/
abbrev Path := List String

/-- The last segment of a path: JS `path.basename` on a joined path. -/
def Path.basename (p : Path) : String := p.getLastD ""

/-- JS `path.basename` applied to a raw string: the part after the last
separator.  The program applies it to bare `readdir` entry names, where it
is the identity. -/
def baseNameStr (s : String) : String :=
  String.mk ((s.data.reverse.takeWhile (· != '/')).reverse)

/-- JS `path.relative`, at the call shape the program uses
(`path.relative(path.dirname(source), source)`, where the first argument is
a prefix of the second): drop the prefix. -/
def pathRelative (base p : Path) : Path := p.drop base.length

/-- A destination filesystem entry: a file with its byte content, or a
directory. -/
inductive Entry where
  | file (content : String)
  | dir
  deriving DecidableEq, Repr

/-- The destination filesystem: an association list from paths to entries. -/
abbrev FS := List (Path × Entry)

/-- JS `fs.stat` / `fs.access`: look a path up; `none` records that no
entry is mapped at the path (a stat miss; `statNode` below refines a miss
into ENOENT versus ENOTDIR where the code distinguishes them). -/
def FS.stat (fs : FS) (p : Path) : Option Entry :=
  match fs with
  | [] => none
  | q :: rest => if q.1 = p then some q.2 else FS.stat rest p

/-- JS `fs.copyFile` target write (and single `fs.mkdir`): store an entry at
a path, replacing any entry already there. -/
def FS.set (fs : FS) (p : Path) (e : Entry) : FS :=
  match fs with
  | [] => [(p, e)]
  | q :: rest => if q.1 = p then (p, e) :: rest else q :: FS.set rest p e

/-- The nonempty prefixes of a path, shortest first. -/
def prefixesUpTo (p : Path) : List Path :=
  (List.range p.length).map (fun i => p.take (i + 1))

/-- JS `fs.mkdir` with the recursive flag: create a directory at every
nonempty prefix of the path that does not exist yet, leaving existing
entries untouched.  Node's call fails when a file occupies a prefix; the
code only reaches it after an ENOENT stat miss, and under the
no-file-ancestor condition of that miss (see `statNode`) no prefix is a
file, so this total model agrees with Node there. -/
def FS.mkdirp (fs : FS) (p : Path) : FS :=
  (prefixesUpTo p).foldl
    (fun acc q => if FS.stat acc q = none then FS.set acc q Entry.dir else acc) fs

/-- A source tree: the static contents of the source region being walked.
`fs.readdir` of a directory returns the entry names in list order. -/
inductive FTree where
  | file (content : String)
  | dir (entries : List (String × FTree))

/-- Decimal notation for a counter, digit characters built most significant
first; embeds the template interpolation of the rename counter. -/
def decRepAux : Nat → Nat → List Char
  | 0, _ => []
  | fuel + 1, n =>
    if n = 0 then [] else decRepAux fuel (n / 10) ++ [Nat.digitChar (n % 10)]

/-- Decimal string of a natural number. -/
def decimalRepr (n : Nat) : String :=
  if n = 0 then "0" else String.mk (decRepAux n n)

/-- Positions of extension-separating dots in a file name: occurrences of
the dot character at a position after the first, as JS `path.parse` treats
a leading dot as part of the name. -/
def dotIdxs (cs : List Char) : List Nat :=
  (List.range cs.length).filter (fun i => decide (cs.get? i = some '.') && decide (0 < i))

/-- The name/extension split JS `path.parse` performs on a base name: the
extension starts at the last dot, unless that dot is the leading character
or there is none. -/
def splitExt (s : String) : String × String :=
  match (dotIdxs s.data).getLast? with
  | none => (s, "")
  | some i => (String.mk (s.data.take i), String.mk (s.data.drop i))

/-- The candidate path the resolver derives from the original path and a
counter: `path.join(dir, name_<counter><ext>)` where `dir`, `name` and
`ext` come from `path.parse` of the original path. -/
def renameCandidate (filePath : Path) (counter : Nat) : Path :=
  let base := Path.basename filePath
  let parts := splitExt base
  filePath.dropLast ++ [parts.1 ++ "_" ++ decimalRepr counter ++ parts.2]

/-- The loop of `getUniqueFileName`: while the current candidate exists,
move to the candidate derived from the original path and the counter.  The
fuel argument only bounds the iteration count; `getUniqueFileName` passes
enough fuel for the loop to reach a free path. -/
def getUniqueAux (fs : FS) (filePath : Path) : Path → Nat → Nat → Path
  | uniquePath, _, 0 => uniquePath
  | uniquePath, counter, fuel + 1 =>
    if (FS.stat fs uniquePath).isSome then
      getUniqueAux fs filePath (renameCandidate filePath counter) (counter + 1) fuel
    else uniquePath

/-- The unique-name resolver `getUniqueFileName`: starting from the original
path with the counter at 1, repeatedly test existence and step to
`name_<counter><ext>` candidates until a free path is found.  It only reads
the filesystem. -/
def getUniqueFileName (fs : FS) (filePath : Path) : Path :=
  getUniqueAux fs filePath filePath 1 (fs.length + 1)

/-- A per-entry result, as the program reports it: the Copied / Overwritten
/ Skipped / Renamed log lines and the caught per-branch error. -/
inductive Outcome where
  | copied (source dest : Path)
  | overwritten (source dest : Path)
  | skipped (source : Path)
  | renamed (source dest : Path)
  | failed (source : Path) (msg : String)
  deriving DecidableEq, Repr

/-- The source path an outcome is attributed to. -/
def Outcome.src : Outcome → Path
  | .copied s _ => s
  | .overwritten s _ => s
  | .skipped s => s
  | .renamed s _ => s
  | .failed s _ => s

/-- Whether an outcome records a file write to the given destination path. -/
def Outcome.isWriteTo : Outcome → Path → Prop
  | .copied _ d, q => d = q
  | .overwritten _ d, q => d = q
  | .renamed _ d, q => d = q
  | .skipped _, _ => False
  | .failed _ _, _ => False

/-- Error descriptor for a missing source (the stat ENOENT at the top of
`copyItem`). -/
def noSourceMsg : String := "no such file or directory"

/-- Error descriptor for the throw when a file occupies the directory
destination. -/
def mkdirConflictMsg : String := "Cannot create directory: a file with the same name already exists"

/-- Error descriptor for the throw when a directory occupies the file
destination. -/
def fileConflictMsg : String := "Cannot copy file: a directory with the same name already exists"

/-- Error descriptor for the throw on an unrecognized conflict-resolution
value. -/
def unknownPolicyMsg : String := "Unknown conflict resolution strategy"

mutual

/-- The body of `copyItem` below the source stat, walking a source tree.
Every branch mirrors the JavaScript: the depth and height guards, the
empty-directory flatten guard, the destination stat / mkdir of the
non-flatten directory case, and the file case with its conflict switch and
its ENOENT path.  A thrown error is caught at this level and becomes a
`failed` outcome. -/
def copyTree (sourcePath : Path) (t : FTree) (destination : Path)
    (depth height : Nat) (flatten : Bool) (conflictResolution : String)
    (currentDepth : Nat) (fs : FS) : FS × List Outcome :=
  match t with
  | .dir entries =>
    if depth > 0 ∧ currentDepth ≥ depth then (fs, [])
    else if height > 0 ∧ currentDepth ≥ height then (fs, [])
    else if entries.length = 0 ∧ flatten then (fs, [])
    else if flatten then
      processEntries sourcePath entries destination depth height flatten
        conflictResolution currentDepth fs
    else
      match FS.stat fs destination with
      | some (.file _) => (fs, [.failed sourcePath mkdirConflictMsg])
      | some .dir =>
        processEntries sourcePath entries destination depth height flatten
          conflictResolution currentDepth fs
      | none =>
        processEntries sourcePath entries destination depth height flatten
          conflictResolution currentDepth (FS.mkdirp fs destination)
  | .file content =>
    let destPath := if flatten then destination ++ [Path.basename sourcePath] else destination
    match FS.stat fs destPath with
    | some .dir => (fs, [.failed sourcePath fileConflictMsg])
    | some (.file _) =>
      if conflictResolution = "overwrite" then
        (FS.set fs destPath (.file content), [.overwritten sourcePath destPath])
      else if conflictResolution = "skip" then
        (fs, [.skipped sourcePath])
      else if conflictResolution = "rename" then
        let uniquePath := getUniqueFileName fs destPath
        (FS.set fs uniquePath (.file content), [.renamed sourcePath uniquePath])
      else
        (fs, [.failed sourcePath unknownPolicyMsg])
    | none =>
      (FS.set (FS.mkdirp fs destPath.dropLast) destPath (.file content),
       [.copied sourcePath destPath])

/-- The for-loop over a directory listing: each entry is copied in order,
the filesystem state threads through, and the reported outcomes are
concatenated. -/
def processEntries (sourcePath : Path) (entries : List (String × FTree))
    (destination : Path) (depth height : Nat) (flatten : Bool)
    (conflictResolution : String) (currentDepth : Nat) (fs : FS) :
    FS × List Outcome :=
  match entries with
  | [] => (fs, [])
  | (item, t) :: rest =>
    let sourcePath2 := sourcePath ++ [item]
    let destPath :=
      if flatten then destination ++ [baseNameStr item] else destination ++ [item]
    let r := copyTree sourcePath2 t destPath depth height flatten
      conflictResolution (currentDepth + 1) fs
    let r2 := processEntries sourcePath rest destination depth height flatten
      conflictResolution currentDepth r.1
    (r2.1, r.2 ++ r2.2)

end

/-- The recursive copier `copyItem`: stat the source (a missing source is
the `none` case, reported as a failure of this branch), then walk the
tree. -/
def copyItem (sourcePath : Path) (src : Option FTree) (destination : Path)
    (depth height : Nat) (flatten : Bool) (conflictResolution : String)
    (currentDepth : Nat) (fs : FS) : FS × List Outcome :=
  match src with
  | none => (fs, [.failed sourcePath noSourceMsg])
  | some t =>
    copyTree sourcePath t destination depth height flatten conflictResolution
      currentDepth fs

/-- The source field of a task configuration: a single path or an ordered
list of paths. -/
inductive SrcSpec where
  | single (p : Path)
  | multiple (ps : List Path)

/-- One task configuration, after the defaulting the orchestration layer
performs. -/
structure CopyTask where
  src : SrcSpec
  dest : Path
  depth : Nat
  height : Nat
  flatten : Bool
  conflictResolution : String

/-- The loop of `copy` over a task's list of source paths: each source's own
destination is the task destination when flattening, and otherwise the task
destination joined with the source's path relative to its parent
directory. -/
def runSources (resolve : Path → Option FTree) (ss : List Path) (dest : Path)
    (depth height : Nat) (flatten : Bool) (conflictResolution : String)
    (fs : FS) : FS × List Outcome :=
  match ss with
  | [] => (fs, [])
  | s :: rest =>
    let destination := if flatten then dest else dest ++ pathRelative s.dropLast s
    let r := copyItem s (resolve s) destination depth height flatten
      conflictResolution 0 fs
    let r2 := runSources resolve rest dest depth height flatten
      conflictResolution r.1
    (r2.1, r.2 ++ r2.2)

/-- One iteration of the `copy` loop: dispatch on the single-path versus
path-list shape of the task's source field. -/
def runTask (resolve : Path → Option FTree) (t : CopyTask) (fs : FS) :
    FS × List Outcome :=
  match t.src with
  | .single s =>
    let destination := if t.flatten then t.dest else t.dest ++ [Path.basename s]
    copyItem s (resolve s) destination t.depth t.height t.flatten
      t.conflictResolution 0 fs
  | .multiple ss =>
    runSources resolve ss t.dest t.depth t.height t.flatten
      t.conflictResolution fs

/-- The exported `copy` entry point: process the task list in order.  The
`resolve` argument is the stat view of the static source region. -/
def copy (resolve : Path → Option FTree) (cfg : List CopyTask) (fs : FS) :
    FS × List Outcome :=
  match cfg with
  | [] => (fs, [])
  | t :: rest =>
    let r := runTask resolve t fs
    let r2 := copy resolve rest r.1
    (r2.1, r.2 ++ r2.2)

/-! ## Node-faithful stat refinement for the file branch

`FS.stat` returning `none` only records that no entry is mapped at the
path.  Node's `fs.stat` distinguishes two miss cases: ENOENT when the path
and its missing components simply do not exist, and ENOTDIR when a path
component is occupied by a file.  The code's catch checks
`err.code === 'ENOENT'` and rethrows everything else, so the distinction
decides whether the fresh-destination copy path runs or the branch fails.
The following definitions refine the stat miss accordingly and restate the
file branch of `copyItem` over the refined stat; on states where no
ancestor of the effective destination is a file the refined branch agrees
with `copyTree` (and there Node's recursive `fs.mkdir` cannot hit a file
component either, so `FS.mkdirp` is also faithful). -/

/-- Result of a Node `fs.stat` call: an entry, a plain ENOENT miss, or an
ENOTDIR failure because a path component is occupied by a file. -/
inductive StatResult where
  | found (e : Entry)
  | enoent
  | enotdir
  deriving DecidableEq, Repr

/-- Whether a proper ancestor of the path is occupied by a file. -/
def hasFileAncestor (fs : FS) (p : Path) : Bool :=
  (prefixesUpTo p.dropLast).any (fun q =>
    match FS.stat fs q with
    | some (Entry.file _) => true
    | _ => false)

/-- Node-faithful `fs.stat`: a mapped entry is found; a miss is ENOTDIR
when a proper ancestor is a file and ENOENT otherwise. -/
def statNode (fs : FS) (p : Path) : StatResult :=
  match FS.stat fs p with
  | some e => StatResult.found e
  | none =>
    if hasFileAncestor fs p then StatResult.enotdir else StatResult.enoent

/-- Error descriptor for a rethrown non-ENOENT stat failure (ENOTDIR),
caught by the per-branch catch. -/
def notDirMsg : String := "not a directory"

/-- The file branch of `copyItem` over the Node-faithful stat: identical to
the file case of `copyTree` except that an ENOTDIR stat miss is rethrown
past the `err.code === 'ENOENT'` check and fails the branch instead of
entering the fresh-destination copy path. -/
def copyFileItemNode (sourcePath : Path) (content : String) (destination : Path)
    (_depth _height : Nat) (flatten : Bool) (conflictResolution : String)
    (_currentDepth : Nat) (fs : FS) : FS × List Outcome :=
  let destPath :=
    if flatten then destination ++ [Path.basename sourcePath] else destination
  match statNode fs destPath with
  | .found Entry.dir => (fs, [.failed sourcePath fileConflictMsg])
  | .found (Entry.file _) =>
    if conflictResolution = "overwrite" then
      (FS.set fs destPath (.file content), [.overwritten sourcePath destPath])
    else if conflictResolution = "skip" then
      (fs, [.skipped sourcePath])
    else if conflictResolution = "rename" then
      let uniquePath := getUniqueFileName fs destPath
      (FS.set fs uniquePath (.file content), [.renamed sourcePath uniquePath])
    else
      (fs, [.failed sourcePath unknownPolicyMsg])
  | .enoent =>
    (FS.set (FS.mkdirp fs destPath.dropLast) destPath (.file content),
     [.copied sourcePath destPath])
  | .enotdir => (fs, [.failed sourcePath notDirMsg])

/-! ## Association-list filesystem lemmas -/

theorem stat_set_self (fs : FS) (p : Path) (e : Entry) :
    FS.stat (FS.set fs p e) p = some e := by
  induction fs with
  | nil => simp [FS.set, FS.stat]
  | cons q rest ih =>
    by_cases h : q.1 = p
    · simp [FS.set, FS.stat, h]
    · simp [FS.set, FS.stat, h, ih]

theorem stat_set_ne (fs : FS) (p q : Path) (e : Entry) (h : q ≠ p) :
    FS.stat (FS.set fs p e) q = FS.stat fs q := by
  induction fs with
  | nil =>
    simp only [FS.set, FS.stat]
    rw [if_neg (Ne.symm h)]
  | cons r rest ih =>
    simp only [FS.set]
    by_cases hr : r.1 = p
    · rw [if_pos hr]
      simp only [FS.stat]
      rw [if_neg (Ne.symm h), if_neg (by rw [hr]; exact Ne.symm h)]
    · rw [if_neg hr]
      simp only [FS.stat]
      by_cases hq : r.1 = q
      · rw [if_pos hq, if_pos hq]
      · rw [if_neg hq, if_neg hq, ih]

theorem length_set_of_stat_none (fs : FS) (p : Path) (e : Entry)
    (h : FS.stat fs p = none) : (FS.set fs p e).length = fs.length + 1 := by
  induction fs with
  | nil => simp [FS.set]
  | cons q rest ih =>
    by_cases hq : q.1 = p
    · simp [FS.stat, hq] at h
    · simp [FS.stat, hq] at h
      simp [FS.set, hq, ih h]

theorem fs_ne_nil_of_stat_isSome {fs : FS} {p : Path}
    (h : (FS.stat fs p).isSome) : fs ≠ [] := by
  intro hnil
  subst hnil
  simp [FS.stat] at h

theorem two_stats_two_length {fs : FS} {p q : Path} (hp : (FS.stat fs p).isSome)
    (hq : (FS.stat fs q).isSome) (hpq : p ≠ q) : 2 ≤ fs.length := by
  induction fs with
  | nil => simp [FS.stat] at hp
  | cons r rest ih =>
    by_cases hrp : r.1 = p
    · have hq2 : (FS.stat rest q).isSome := by
        have hne : ¬ r.1 = q := by rw [hrp]; exact hpq
        simpa [FS.stat, hne] using hq
      have hnil := fs_ne_nil_of_stat_isSome hq2
      have hlen : 0 < rest.length := List.length_pos.mpr hnil
      simp only [List.length_cons]
      omega
    · by_cases hrq : r.1 = q
      · have hp2 : (FS.stat rest p).isSome := by
          simpa [FS.stat, hrp] using hp
        have hnil := fs_ne_nil_of_stat_isSome hp2
        have hlen : 0 < rest.length := List.length_pos.mpr hnil
        simp only [List.length_cons]
        omega
      · have hp2 : (FS.stat rest p).isSome := by simpa [FS.stat, hrp] using hp
        have hq2 : (FS.stat rest q).isSome := by simpa [FS.stat, hrq] using hq
        have := ih hp2 hq2
        simp only [List.length_cons]
        omega

theorem mem_keys_of_stat_isSome {fs : FS} {p : Path}
    (h : (FS.stat fs p).isSome) : p ∈ fs.map Prod.fst := by
  induction fs with
  | nil => simp [FS.stat] at h
  | cons q rest ih =>
    by_cases hq : q.1 = p
    · exact List.mem_map.mpr ⟨q, List.mem_cons_self q rest, hq⟩
    · simp only [FS.stat] at h
      rw [if_neg hq] at h
      simp only [List.map_cons, List.mem_cons]
      exact Or.inr (ih h)

/-- One step of the `mkdirp` fold. -/
def mkdirpStep (acc : FS) (q : Path) : FS :=
  if FS.stat acc q = none then FS.set acc q Entry.dir else acc

theorem mkdirp_eq_foldl (fs : FS) (p : Path) :
    FS.mkdirp fs p = (prefixesUpTo p).foldl mkdirpStep fs := rfl

theorem stat_foldl_mkdirpStep_of_some {q : Path} {e : Entry} :
    ∀ (L : List Path) (fs : FS), FS.stat fs q = some e →
      FS.stat (L.foldl mkdirpStep fs) q = some e := by
  intro L
  induction L with
  | nil => intro fs h; simpa using h
  | cons a L ih =>
    intro fs h
    simp only [List.foldl_cons]
    apply ih
    unfold mkdirpStep
    by_cases ha : FS.stat fs a = none
    · rw [if_pos ha]
      by_cases haq : q = a
      · subst haq; rw [h] at ha; cases ha
      · rw [stat_set_ne _ _ _ _ haq]; exact h
    · rw [if_neg ha]; exact h

theorem stat_foldl_mkdirpStep_of_not_mem {q : Path} :
    ∀ (L : List Path) (fs : FS), q ∉ L →
      FS.stat (L.foldl mkdirpStep fs) q = FS.stat fs q := by
  intro L
  induction L with
  | nil => intro fs _; rfl
  | cons a L ih =>
    intro fs h
    have hqa : q ≠ a := by intro hh; exact h (by simp [hh])
    have hL : q ∉ L := fun hh => h (by simp [hh])
    simp only [List.foldl_cons]
    rw [ih _ hL]
    unfold mkdirpStep
    by_cases ha : FS.stat fs a = none
    · rw [if_pos ha, stat_set_ne _ _ _ _ hqa]
    · rw [if_neg ha]

theorem stat_foldl_mkdirpStep_file {q : Path} {c : String} :
    ∀ (L : List Path) (fs : FS),
      FS.stat (L.foldl mkdirpStep fs) q = some (.file c) →
      FS.stat fs q = some (.file c) := by
  intro L
  induction L with
  | nil => intro fs h; simpa using h
  | cons a L ih =>
    intro fs h
    simp only [List.foldl_cons] at h
    have h2 := ih _ h
    unfold mkdirpStep at h2
    by_cases ha : FS.stat fs a = none
    · rw [if_pos ha] at h2
      by_cases haq : q = a
      · subst haq
        rw [stat_set_self] at h2
        cases h2
      · rwa [stat_set_ne _ _ _ _ haq] at h2
    · rwa [if_neg ha] at h2

theorem length_le_foldl_mkdirpStep :
    ∀ (L : List Path) (fs : FS), fs.length ≤ (L.foldl mkdirpStep fs).length := by
  intro L
  induction L with
  | nil => intro fs; simp
  | cons a L ih =>
    intro fs
    simp only [List.foldl_cons]
    refine le_trans ?_ (ih (mkdirpStep fs a))
    unfold mkdirpStep
    by_cases ha : FS.stat fs a = none
    · rw [if_pos ha, length_set_of_stat_none _ _ _ ha]; omega
    · rw [if_neg ha]

theorem length_le_of_mem_prefixesUpTo {p q : Path} (h : q ∈ prefixesUpTo p) :
    q.length ≤ p.length := by
  unfold prefixesUpTo at h
  simp only [List.mem_map, List.mem_range] at h
  obtain ⟨i, _, rfl⟩ := h
  simp [List.length_take]

theorem stat_mkdirp_of_some {fs : FS} {p q : Path} {e : Entry}
    (h : FS.stat fs q = some e) : FS.stat (FS.mkdirp fs p) q = some e :=
  stat_foldl_mkdirpStep_of_some _ _ h

theorem stat_mkdirp_file {fs : FS} {p q : Path} {c : String}
    (h : FS.stat (FS.mkdirp fs p) q = some (.file c)) :
    FS.stat fs q = some (.file c) :=
  stat_foldl_mkdirpStep_file _ _ h

theorem stat_mkdirp_of_longer {fs : FS} {p q : Path} (h : p.length < q.length) :
    FS.stat (FS.mkdirp fs p) q = FS.stat fs q := by
  apply stat_foldl_mkdirpStep_of_not_mem
  intro hmem
  have := length_le_of_mem_prefixesUpTo hmem
  omega

theorem length_le_mkdirp (fs : FS) (p : Path) :
    fs.length ≤ (FS.mkdirp fs p).length :=
  length_le_foldl_mkdirpStep _ _

/-! ## Decimal representation lemmas -/

/-- Numeric value of a digit character. -/
def charVal (c : Char) : Nat := c.toNat - 48

/-- Numeric value of a digit string, most significant digit first. -/
def listVal (cs : List Char) : Nat := cs.foldl (fun a c => 10 * a + charVal c) 0

theorem listVal_append_singleton (xs : List Char) (c : Char) :
    listVal (xs ++ [c]) = 10 * listVal xs + charVal c := by
  simp [listVal, List.foldl_append]

theorem charVal_digitChar {d : Nat} (h : d < 10) :
    charVal (Nat.digitChar d) = d := by
  interval_cases d <;> decide

theorem listVal_decRepAux : ∀ (fuel n : Nat), n ≤ fuel →
    listVal (decRepAux fuel n) = n := by
  intro fuel
  induction fuel with
  | zero =>
    intro n hn
    have : n = 0 := by omega
    subst this
    rfl
  | succ fuel ih =>
    intro n hn
    by_cases hz : n = 0
    · subst hz; rfl
    · have hrec : decRepAux (fuel + 1) n
          = decRepAux fuel (n / 10) ++ [Nat.digitChar (n % 10)] := by
        simp [decRepAux, hz]
      have hdiv : n / 10 ≤ fuel := by
        have := Nat.div_lt_self (Nat.pos_of_ne_zero hz) (by norm_num : (1 : Nat) < 10)
        omega
      rw [hrec, listVal_append_singleton,
        charVal_digitChar (Nat.mod_lt _ (by norm_num)), ih (n / 10) hdiv]
      omega

theorem listVal_decimalRepr (n : Nat) : listVal (decimalRepr n).data = n := by
  unfold decimalRepr
  by_cases hz : n = 0
  · subst hz; decide
  · rw [if_neg hz]
    exact listVal_decRepAux n n le_rfl

theorem decimalRepr_injective {a b : Nat} (h : decimalRepr a = decimalRepr b) :
    a = b := by
  have := congrArg (fun s => listVal (String.data s)) h
  simpa [listVal_decimalRepr] using this

theorem one_le_length_decimalRepr (n : Nat) : 1 ≤ (decimalRepr n).length := by
  unfold decimalRepr
  by_cases hz : n = 0
  · subst hz; decide
  · rw [if_neg hz]
    obtain ⟨m, rfl⟩ : ∃ m, n = m + 1 := ⟨n - 1, by omega⟩
    have : decRepAux (m + 1) (m + 1)
        = decRepAux m ((m + 1) / 10) ++ [Nat.digitChar ((m + 1) % 10)] := by
      simp [decRepAux]
    rw [String.length_mk, this]
    simp

/-! ## splitExt and renameCandidate lemmas -/

theorem string_mk_append (xs ys : List Char) :
    String.mk xs ++ String.mk ys = String.mk (xs ++ ys) := rfl

theorem splitExt_append (s : String) : (splitExt s).1 ++ (splitExt s).2 = s := by
  unfold splitExt
  cases h : (dotIdxs s.data).getLast? with
  | none =>
    show s ++ "" = s
    cases s with
    | mk data => show String.mk (data ++ []) = _; rw [List.append_nil]
  | some i =>
    show String.mk _ ++ String.mk _ = s
    rw [string_mk_append, List.take_append_drop]

theorem splitExt_length (s : String) :
    (splitExt s).1.length + (splitExt s).2.length = s.length := by
  have := congrArg String.length (splitExt_append s)
  rwa [String.length_append] at this

theorem suffixed_name_ne (s : String) (n : Nat) :
    (splitExt s).1 ++ "_" ++ decimalRepr n ++ (splitExt s).2 ≠ s := by
  intro h
  have hl := congrArg String.length h
  rw [String.length_append, String.length_append, String.length_append] at hl
  have hs := splitExt_length s
  have hrep := one_le_length_decimalRepr n
  have hu : ("_" : String).length = 1 := rfl
  omega

theorem path_basename_concat (q : Path) (a : String) :
    Path.basename (q ++ [a]) = a := by
  unfold Path.basename
  induction q with
  | nil => rfl
  | cons b q ih =>
    cases q with
    | nil => rfl
    | cons c q => simp [List.getLastD]

theorem renameCandidate_ne_self (p : Path) (n : Nat) :
    renameCandidate p n ≠ p := by
  unfold renameCandidate
  intro h
  rcases List.eq_nil_or_concat p with rfl | ⟨q, a, rfl⟩
  · simp at h
  · simp only [List.concat_eq_append] at h
    rw [List.dropLast_concat] at h
    have h2 := List.append_cancel_left h
    have h3 : _ = a := List.head_eq_of_cons_eq h2
    rw [path_basename_concat] at h3
    exact suffixed_name_ne a n h3

theorem renameCandidate_injective (p : Path) :
    Function.Injective (renameCandidate p) := by
  intro a b h
  unfold renameCandidate at h
  have h2 := List.append_cancel_left h
  have h3 := List.head_eq_of_cons_eq h2
  have hd := congrArg String.data h3
  simp only [String.data_append] at hd
  have h4 := List.append_cancel_right hd
  simp only [List.append_assoc, List.singleton_append] at h4
  have h5 := List.append_cancel_left h4
  have h6 := List.tail_eq_of_cons_eq h5
  exact decimalRepr_injective (String.ext h6)

/-! ## Unique-name resolver lemmas -/

theorem getUniqueAux_shape (fs : FS) (fp : Path) :
    ∀ (fuel counter : Nat) (cur : Path),
      getUniqueAux fs fp cur counter fuel = cur ∨
        ∃ n, counter ≤ n ∧ getUniqueAux fs fp cur counter fuel = renameCandidate fp n := by
  intro fuel
  induction fuel with
  | zero => intro counter cur; left; rfl
  | succ fuel ih =>
    intro counter cur
    by_cases h : (FS.stat fs cur).isSome
    · have hrec : getUniqueAux fs fp cur counter (fuel + 1)
          = getUniqueAux fs fp (renameCandidate fp counter) (counter + 1) fuel := by
        simp [getUniqueAux, h]
      rw [hrec]
      rcases ih (counter + 1) (renameCandidate fp counter) with h2 | ⟨n, hn, h2⟩
      · right; exact ⟨counter, le_rfl, h2⟩
      · right; exact ⟨n, by omega, h2⟩
    · left; simp [getUniqueAux, h]

theorem getUniqueAux_all_occupied (fs : FS) (fp : Path) :
    ∀ (fuel counter : Nat) (cur : Path),
      (FS.stat fs (getUniqueAux fs fp cur counter fuel)).isSome →
      ∀ x ∈ cur :: (List.range' counter fuel).map (renameCandidate fp),
        (FS.stat fs x).isSome := by
  intro fuel
  induction fuel with
  | zero =>
    intro counter cur h x hx
    simp only [List.range', List.map_nil, List.mem_singleton] at hx
    subst hx
    exact h
  | succ fuel ih =>
    intro counter cur h x hx
    by_cases hcur : (FS.stat fs cur).isSome
    · have hrec : getUniqueAux fs fp cur counter (fuel + 1)
          = getUniqueAux fs fp (renameCandidate fp counter) (counter + 1) fuel := by
        simp [getUniqueAux, hcur]
      rw [hrec] at h
      have hall := ih (counter + 1) (renameCandidate fp counter) h
      have hx2 : x = cur ∨
          x ∈ renameCandidate fp counter ::
            (List.range' (counter + 1) fuel).map (renameCandidate fp) := by
        have hr : List.range' counter (fuel + 1) = counter :: List.range' (counter + 1) fuel :=
          List.range'_succ counter fuel 1
        simpa [hr] using hx
      rcases hx2 with rfl | hx2
      · exact hcur
      · exact hall x hx2
    · have hres : getUniqueAux fs fp cur counter (fuel + 1) = cur := by
        simp [getUniqueAux, hcur]
      rw [hres] at h
      exact absurd h hcur

theorem stat_getUniqueFileName (fs : FS) (p : Path) :
    FS.stat fs (getUniqueFileName fs p) = none := by
  by_contra h
  have hsome : (FS.stat fs (getUniqueFileName fs p)).isSome :=
    Option.ne_none_iff_isSome.mp h
  have hall := getUniqueAux_all_occupied fs p (fs.length + 1) 1 p hsome
  have hsub : (p :: (List.range' 1 (fs.length + 1)).map (renameCandidate p))
      ⊆ fs.map Prod.fst := fun x hx => mem_keys_of_stat_isSome (hall x hx)
  have hnd : (p :: (List.range' 1 (fs.length + 1)).map (renameCandidate p)).Nodup := by
    refine List.nodup_cons.mpr ⟨?_, ?_⟩
    · intro hmem
      obtain ⟨n, _, hn⟩ := List.mem_map.mp hmem
      exact renameCandidate_ne_self p n hn
    · exact (List.nodup_range' 1 (fs.length + 1)).map (renameCandidate_injective p)
  have hlen := (List.subperm_of_subset hnd hsub).length_le
  simp only [List.length_cons, List.length_map, List.length_range'] at hlen
  omega

/-! ## Claim theorems -/

/-- C4: the unique-name resolver starts from the original candidate and
repeatedly tests existence, producing `name_<n><ext>` candidates derived
from the original base name; the returned path does not exist at the time
of the check, so in particular the original candidate is never returned
when it already exists.  The resolver takes the filesystem as a read-only
argument and returns only a path, so it performs no filesystem
modification by construction. -/
theorem claim_C4_unique_name_resolver (fs : FS) (p : Path) :
    FS.stat fs (getUniqueFileName fs p) = none
    ∧ ((FS.stat fs p).isSome → getUniqueFileName fs p ≠ p)
    ∧ (getUniqueFileName fs p = p ∨
        ∃ n, 1 ≤ n ∧ getUniqueFileName fs p = renameCandidate p n) := by
  refine ⟨stat_getUniqueFileName fs p, ?_, ?_⟩
  · intro hp heq
    have hnone := stat_getUniqueFileName fs p
    rw [heq] at hnone
    rw [hnone] at hp
    simp at hp
  · exact getUniqueAux_shape fs p (fs.length + 1) 1 p

/-- Witness for C4: on a filesystem where `d/f.txt` is occupied the
resolver returns the fresh path `d/f_1.txt`, distinct from the original
candidate. -/
theorem claim_C4_witness :
    FS.stat [(["d", "f.txt"], Entry.file "c")]
        (getUniqueFileName [(["d", "f.txt"], Entry.file "c")] ["d", "f.txt"]) = none
    ∧ getUniqueFileName [(["d", "f.txt"], Entry.file "c")] ["d", "f.txt"] ≠ ["d", "f.txt"] :=
  ⟨(claim_C4_unique_name_resolver [(["d", "f.txt"], Entry.file "c")] ["d", "f.txt"]).1,
   (claim_C4_unique_name_resolver [(["d", "f.txt"], Entry.file "c")] ["d", "f.txt"]).2.1
     (by decide)⟩

/-! ## Mutual induction over source trees -/

mutual

/-- Induction over a source tree, with a parallel motive for entry lists. -/
def treeInd {P : FTree → Prop} {Q : List (String × FTree) → Prop}
    (hfile : ∀ c, P (FTree.file c)) (hdir : ∀ es, Q es → P (FTree.dir es))
    (hnil : Q []) (hcons : ∀ n t rest, P t → Q rest → Q ((n, t) :: rest)) :
    ∀ t, P t
  | FTree.file c => hfile c
  | FTree.dir es => hdir es (entriesInd hfile hdir hnil hcons es)

/-- Induction over an entry list, with a parallel motive for trees. -/
def entriesInd {P : FTree → Prop} {Q : List (String × FTree) → Prop}
    (hfile : ∀ c, P (FTree.file c)) (hdir : ∀ es, Q es → P (FTree.dir es))
    (hnil : Q []) (hcons : ∀ n t rest, P t → Q rest → Q ((n, t) :: rest)) :
    ∀ es, Q es
  | [] => hnil
  | (n, t) :: rest =>
    hcons n t rest (treeInd hfile hdir hnil hcons t)
      (entriesInd hfile hdir hnil hcons rest)

end

/-- Combined induction over trees and entry lists. -/
theorem treeInd2 {P : FTree → Prop} {Q : List (String × FTree) → Prop}
    (hfile : ∀ c, P (FTree.file c)) (hdir : ∀ es, Q es → P (FTree.dir es))
    (hnil : Q []) (hcons : ∀ n t rest, P t → Q rest → Q ((n, t) :: rest)) :
    (∀ t, P t) ∧ (∀ es, Q es) :=
  ⟨treeInd hfile hdir hnil hcons, entriesInd hfile hdir hnil hcons⟩

/-- C10: with a positive depth bound, a directory whose current depth has
reached the bound is not descended into: its entries are not listed or
recursed on, the filesystem is untouched and no outcome is produced. -/
theorem claim_C10_depth_stops_descent (sp : Path) (es : List (String × FTree))
    (dest : Path) (depth height : Nat) (fl : Bool) (pol : String)
    (currentDepth : Nat) (fs : FS) (hd : 0 < depth) (hc : depth ≤ currentDepth) :
    copyItem sp (some (FTree.dir es)) dest depth height fl pol currentDepth fs
      = (fs, []) := by
  simp only [copyItem, copyTree]
  rw [if_pos ⟨hd, hc⟩]

/-- Witness for C10 at a concrete directory already at the depth bound. -/
theorem claim_C10_witness :
    copyItem ["a"] (some (FTree.dir [("x", FTree.file "1")])) ["out"] 1 0 false
      "overwrite" 1 [] = ([], []) :=
  claim_C10_depth_stops_descent ["a"] [("x", FTree.file "1")] ["out"] 1 0 false
    "overwrite" 1 [] (by decide) (by decide)

/-- C9: under the skip policy, when the effective destination file already
exists the copier takes no filesystem action at all: the state is returned
unchanged (so the pre-existing content is not modified and no file is
created) and only a Skipped outcome is emitted. -/
theorem claim_C9_skip_no_action (sp : Path) (c : String) (dest : Path)
    (depth height : Nat) (fl : Bool) (cd : Nat) (fs : FS) (w : String)
    (h : FS.stat fs (if fl then dest ++ [Path.basename sp] else dest)
      = some (Entry.file w)) :
    copyItem sp (some (FTree.file c)) dest depth height fl "skip" cd fs
      = (fs, [Outcome.skipped sp]) := by
  simp only [copyItem, copyTree]
  rw [h]
  simp

/-- Witness for C9: skipping a concrete existing destination leaves the
filesystem exactly as it was. -/
theorem claim_C9_witness :
    copyItem ["s", "f.txt"] (some (FTree.file "new")) ["d"] 0 0 true "skip" 0
      [(["d", "f.txt"], Entry.file "old")]
      = ([(["d", "f.txt"], Entry.file "old")], [Outcome.skipped ["s", "f.txt"]]) :=
  claim_C9_skip_no_action ["s", "f.txt"] "new" ["d"] 0 0 true 0
    [(["d", "f.txt"], Entry.file "old")] "old" (by decide)

/-- C7: a kind conflict is failed without destructive action.  Copying a
file onto a destination path occupied by a directory fails that branch and
returns the filesystem unchanged; likewise, preparing a destination
directory at a path occupied by a file fails that branch and returns the
filesystem unchanged. -/
theorem claim_C7_kind_conflict (sp : Path) (c : String)
    (es : List (String × FTree)) (dest : Path) (depth height : Nat) (fl : Bool)
    (pol : String) (cd : Nat) (fs : FS) (w : String) :
    (FS.stat fs (if fl then dest ++ [Path.basename sp] else dest)
        = some Entry.dir →
      copyItem sp (some (FTree.file c)) dest depth height fl pol cd fs
        = (fs, [Outcome.failed sp fileConflictMsg]))
    ∧ (FS.stat fs dest = some (Entry.file w) →
      copyItem sp (some (FTree.dir es)) dest depth height false pol 0 fs
        = (fs, [Outcome.failed sp mkdirConflictMsg])) := by
  constructor
  · intro h
    simp only [copyItem, copyTree]
    rw [h]
  · intro h
    have g1 : ¬ (depth > 0 ∧ (0 : Nat) ≥ depth) := by omega
    have g2 : ¬ (height > 0 ∧ (0 : Nat) ≥ height) := by omega
    simp only [copyItem, copyTree]
    rw [if_neg g1, if_neg g2]
    simp [h]

/-- Witness for C7: both conflict kinds at concrete inputs. -/
theorem claim_C7_witness :
    copyItem ["s", "f"] (some (FTree.file "c")) ["d", "f"] 0 0 false "overwrite" 0
        [(["d", "f"], Entry.dir)]
      = ([(["d", "f"], Entry.dir)], [Outcome.failed ["s", "f"] fileConflictMsg])
    ∧ copyItem ["s", "e"] (some (FTree.dir [("x", FTree.file "1")])) ["d", "e"] 0 0
        false "overwrite" 0 [(["d", "e"], Entry.file "w")]
      = ([(["d", "e"], Entry.file "w")], [Outcome.failed ["s", "e"] mkdirConflictMsg]) :=
  ⟨(claim_C7_kind_conflict ["s", "f"] "c" [] ["d", "f"] 0 0 false "overwrite" 0
      [(["d", "f"], Entry.dir)] "w").1 (by decide),
   (claim_C7_kind_conflict ["s", "e"] "c" [("x", FTree.file "1")] ["d", "e"] 0 0
      false "overwrite" 0 [(["d", "e"], Entry.file "w")] "w").2 (by decide)⟩

/-- C8 counterexample: the claim as stated is false.  On a state where the
path `d` is occupied by a file, the effective destination `d/f.txt` does
not exist (no entry is mapped there), yet the copy does not succeed: Node's
`fs.stat` fails with ENOTDIR (a path component is a file), the
`err.code === 'ENOENT'` check rethrows it, and the branch fails with the
state unchanged. -/
theorem claim_C8_counterexample :
    FS.stat [(["d"], Entry.file "w")] ["d", "f.txt"] = none
    ∧ copyFileItemNode ["s", "f.txt"] "c" ["d", "f.txt"] 0 0 false "overwrite" 0
        [(["d"], Entry.file "w")]
      = ([(["d"], Entry.file "w")], [Outcome.failed ["s", "f.txt"] notDirMsg]) := by
  constructor
  · rfl
  · rfl

/-- C8 amended: when the effective destination path of a source file does
not exist AND no ancestor of that path is occupied by a file (so the stat
miss is ENOENT rather than ENOTDIR), the copy succeeds for every
conflict-resolution value, including values outside the recognized set:
missing parent directories are created and the bytes are written; on such
states the Node-faithful file branch and the tree copier's file case agree.
The unknown-policy failure only arises when the effective destination
already exists as a file. -/
theorem claim_C8_fresh_destination_amended (sp : Path) (c : String) (dest dp : Path)
    (depth height : Nat) (fl : Bool) (pol : String) (cd : Nat) (fs : FS) (w : String)
    (hdp : dp = if fl then dest ++ [Path.basename sp] else dest) :
    (hasFileAncestor fs dp = false → FS.stat fs dp = none →
      copyFileItemNode sp c dest depth height fl pol cd fs
        = (FS.set (FS.mkdirp fs dp.dropLast) dp (Entry.file c), [Outcome.copied sp dp])
      ∧ FS.stat (copyFileItemNode sp c dest depth height fl pol cd fs).1 dp
        = some (Entry.file c)
      ∧ copyFileItemNode sp c dest depth height fl pol cd fs
        = copyItem sp (some (FTree.file c)) dest depth height fl pol cd fs)
    ∧ (FS.stat fs dp = some (Entry.file w) → pol ≠ "overwrite" → pol ≠ "skip" →
        pol ≠ "rename" →
      copyFileItemNode sp c dest depth height fl pol cd fs
        = (fs, [Outcome.failed sp unknownPolicyMsg])) := by
  subst hdp
  constructor
  · intro hanc h
    have hst : statNode fs (if fl then dest ++ [Path.basename sp] else dest)
        = StatResult.enoent := by
      unfold statNode
      rw [h, hanc]
      simp
    have heq : copyFileItemNode sp c dest depth height fl pol cd fs
        = (FS.set (FS.mkdirp fs
            (if fl then dest ++ [Path.basename sp] else dest).dropLast)
            (if fl then dest ++ [Path.basename sp] else dest) (Entry.file c),
          [Outcome.copied sp (if fl then dest ++ [Path.basename sp] else dest)]) := by
      simp only [copyFileItemNode]
      rw [hst]
    refine ⟨heq, ?_, ?_⟩
    · rw [heq]
      exact stat_set_self _ _ _
    · rw [heq]
      simp only [copyItem, copyTree]
      rw [h]
  · intro h h1 h2 h3
    have hst : statNode fs (if fl then dest ++ [Path.basename sp] else dest)
        = StatResult.found (Entry.file w) := by
      unfold statNode
      rw [h]
    simp only [copyFileItemNode]
    rw [hst]
    simp [h1, h2, h3]

/-- Witness for C8 amended: with an unrecognized policy value, a fresh
destination whose ancestors are not files is still copied, parents created,
agreeing with the tree copier; and the unknown-policy failure fires on an
occupied destination. -/
theorem claim_C8_witness :
    FS.stat (copyFileItemNode ["s", "f.txt"] "c" ["d", "sub", "f.txt"] 0 0
        false "bogus" 0 []).1 ["d", "sub", "f.txt"] = some (Entry.file "c")
    ∧ copyFileItemNode ["s", "f.txt"] "c" ["d", "sub", "f.txt"] 0 0 false "bogus" 0 []
      = copyItem ["s", "f.txt"] (some (FTree.file "c")) ["d", "sub", "f.txt"] 0 0
          false "bogus" 0 []
    ∧ copyFileItemNode ["s", "f.txt"] "c" ["d", "f.txt"] 0 0 false "bogus" 0
        [(["d", "f.txt"], Entry.file "w")]
      = ([(["d", "f.txt"], Entry.file "w")],
         [Outcome.failed ["s", "f.txt"] unknownPolicyMsg]) :=
  ⟨((claim_C8_fresh_destination_amended ["s", "f.txt"] "c" ["d", "sub", "f.txt"]
      ["d", "sub", "f.txt"] 0 0 false "bogus" 0 [] "w" (by decide)).1 (by decide)
      (by decide)).2.1,
   ((claim_C8_fresh_destination_amended ["s", "f.txt"] "c" ["d", "sub", "f.txt"]
      ["d", "sub", "f.txt"] 0 0 false "bogus" 0 [] "w" (by decide)).1 (by decide)
      (by decide)).2.2,
   (claim_C8_fresh_destination_amended ["s", "f.txt"] "c" ["d", "f.txt"] ["d", "f.txt"]
      0 0 false "bogus" 0 [(["d", "f.txt"], Entry.file "w")] "w" (by decide)).2
      (by decide) (by decide) (by decide) (by decide)⟩

/-- C1: evaluation of the copier at the failing input.  Copying the source
directory `a` containing only the file `x.txt` with `flatten = true` into
the destination root `out` does NOT produce a flat destination: the copier
creates a subdirectory `out/x.txt` and places the file at
`out/x.txt/x.txt`, because the directory loop passes the child-joined path
as the new destination root and the file branch joins the base name once
more.  This contradicts the claim (and the repository README) that flatten
discards directory nesting and leaves only files directly under the
destination root. -/
theorem claim_C1_flatten_failing_input :
    copyItem ["a"] (some (FTree.dir [("x.txt", FTree.file "1")])) ["out"] 0 0 true
        "overwrite" 0 []
      = ([(["out"], Entry.dir), (["out", "x.txt"], Entry.dir),
          (["out", "x.txt", "x.txt"], Entry.file "1")],
         [Outcome.copied ["a", "x.txt"] ["out", "x.txt", "x.txt"]])
    ∧ FS.stat (copyItem ["a"] (some (FTree.dir [("x.txt", FTree.file "1")])) ["out"]
        0 0 true "overwrite" 0 []).1 ["out", "x.txt"] = some Entry.dir := by
  constructor
  · rfl
  · rfl

/-- C2 counterexample: with `maxDepth = 1` the file `x.txt`, which sits at
nesting level 1 of the source tree (the task root directory `a` being level
0), does appear in the destination.  The claim as stated says no file at
nesting level `≥ d` appears, so it fails at level exactly `d`. -/
theorem claim_C2_counterexample :
    FS.stat (copyItem ["a"] (some (FTree.dir [("x.txt", FTree.file "1")]))
        ["out", "a"] 1 0 false "overwrite" 0 []).1 ["out", "a", "x.txt"]
      = some (Entry.file "1") := by
  rfl

/-- C5: `maxHeight` is checked against the same per-branch depth counter as
`maxDepth`, immediately after it, and nothing else reads either bound, so
running the tree copier with the bound in the height slot and zero in the
depth slot produces exactly the same destination state and outcomes as the
converse assignment. -/
theorem claim_C5_height_depth_redundant (sp : Path) (src : Option FTree)
    (dest : Path) (h : Nat) (fl : Bool) (pol : String) (cd : Nat) (fs : FS) :
    copyItem sp src dest 0 h fl pol cd fs = copyItem sp src dest h 0 fl pol cd fs := by
  have main := treeInd2
    (P := fun t => ∀ (sp dest : Path) (h : Nat) (fl : Bool)
      (pol : String) (cd : Nat) (fs : FS),
      copyTree sp t dest 0 h fl pol cd fs = copyTree sp t dest h 0 fl pol cd fs)
    (Q := fun es => ∀ (sp dest : Path) (h : Nat) (fl : Bool)
      (pol : String) (cd : Nat) (fs : FS),
      processEntries sp es dest 0 h fl pol cd fs
        = processEntries sp es dest h 0 fl pol cd fs)
    (fun c sp dest h fl pol cd fs => rfl)
    (fun es ih sp dest h fl pol cd fs => by
      simp only [copyTree]
      rw [if_neg (by omega : ¬ ((0 : Nat) > 0 ∧ cd ≥ 0))]
      by_cases hh : h > 0 ∧ cd ≥ h
      · rw [if_pos hh, if_pos hh]
      · rw [if_neg hh, if_neg hh,
          if_neg (by omega : ¬ ((0 : Nat) > 0 ∧ cd ≥ 0))]
        by_cases he : es.length = 0 ∧ fl = true
        · rw [if_pos he, if_pos he]
        · rw [if_neg he, if_neg he]
          by_cases hfl : fl = true
          · rw [if_pos hfl, if_pos hfl, ih]
          · rw [if_neg hfl, if_neg hfl]
            cases FS.stat fs dest with
            | none => simp only; rw [ih]
            | some e => cases e with
              | file w => simp only
              | dir => simp only; rw [ih])
    (fun sp dest h fl pol cd fs => rfl)
    (fun n t rest iht ihrest sp dest h fl pol cd fs => by
      simp only [processEntries]
      rw [iht, ihrest])
  cases src with
  | none => rfl
  | some t => exact main.1 t sp dest h fl pol cd fs

/-! ## Rename-policy helpers -/

theorem renameCandidate_concat (D : Path) (b : String) (n : Nat) :
    renameCandidate (D ++ [b]) n
      = D ++ [(splitExt b).1 ++ "_" ++ decimalRepr n ++ (splitExt b).2] := by
  unfold renameCandidate
  rw [List.dropLast_concat, path_basename_concat]

theorem getUniqueFileName_one {fs : FS} {p : Path} (h : (FS.stat fs p).isSome)
    (h1 : FS.stat fs (renameCandidate p 1) = none) :
    getUniqueFileName fs p = renameCandidate p 1 := by
  obtain ⟨m, hm⟩ : ∃ m, fs.length = m + 1 := by
    have := List.length_pos.mpr (fs_ne_nil_of_stat_isSome h)
    exact ⟨fs.length - 1, by omega⟩
  unfold getUniqueFileName
  rw [hm]
  show getUniqueAux fs p p 1 ((m + 1) + 1) = _
  simp [getUniqueAux, h, h1]

theorem getUniqueFileName_two {fs : FS} {p : Path} (h : (FS.stat fs p).isSome)
    (h1 : (FS.stat fs (renameCandidate p 1)).isSome)
    (h2 : FS.stat fs (renameCandidate p 2) = none) :
    getUniqueFileName fs p = renameCandidate p 2 := by
  obtain ⟨m, hm⟩ : ∃ m, fs.length = m + 2 := by
    have := two_stats_two_length h h1 (Ne.symm (renameCandidate_ne_self p 1))
    exact ⟨fs.length - 2, by omega⟩
  unfold getUniqueFileName
  rw [hm]
  show getUniqueAux fs p p 1 (((m + 1) + 1) + 1) = _
  simp [getUniqueAux, h, h1, h2]

/-- C3: under the rename policy, copying the same source file three times
into the same flattened destination root yields three distinct destination
files: the original base name, then `<base>_1<ext>`, then `<base>_2<ext>`,
each carrying the source content, with a Copied outcome for the first run
and Renamed outcomes for the second and third. -/
theorem claim_C3_rename_sequence (sp D : Path) (c : String) (fs0 : FS)
    (r1 r2 r3 : FS × List Outcome)
    (h0 : FS.stat fs0 (D ++ [Path.basename sp]) = none)
    (h1 : FS.stat fs0 (renameCandidate (D ++ [Path.basename sp]) 1) = none)
    (h2 : FS.stat fs0 (renameCandidate (D ++ [Path.basename sp]) 2) = none)
    (hr1 : r1 = copyItem sp (some (FTree.file c)) D 0 0 true "rename" 0 fs0)
    (hr2 : r2 = copyItem sp (some (FTree.file c)) D 0 0 true "rename" 0 r1.1)
    (hr3 : r3 = copyItem sp (some (FTree.file c)) D 0 0 true "rename" 0 r2.1) :
    r1.2 = [Outcome.copied sp (D ++ [Path.basename sp])]
    ∧ r2.2 = [Outcome.renamed sp (renameCandidate (D ++ [Path.basename sp]) 1)]
    ∧ r3.2 = [Outcome.renamed sp (renameCandidate (D ++ [Path.basename sp]) 2)]
    ∧ FS.stat r3.1 (D ++ [Path.basename sp]) = some (Entry.file c)
    ∧ FS.stat r3.1 (renameCandidate (D ++ [Path.basename sp]) 1) = some (Entry.file c)
    ∧ FS.stat r3.1 (renameCandidate (D ++ [Path.basename sp]) 2) = some (Entry.file c)
    ∧ renameCandidate (D ++ [Path.basename sp]) 1 = D ++ [(splitExt (Path.basename sp)).1 ++ "_" ++ "1"
        ++ (splitExt (Path.basename sp)).2]
    ∧ renameCandidate (D ++ [Path.basename sp]) 2 = D ++ [(splitExt (Path.basename sp)).1 ++ "_" ++ "2"
        ++ (splitExt (Path.basename sp)).2]
    ∧ renameCandidate (D ++ [Path.basename sp]) 1 ≠ (D ++ [Path.basename sp])
    ∧ renameCandidate (D ++ [Path.basename sp]) 2 ≠ (D ++ [Path.basename sp])
    ∧ renameCandidate (D ++ [Path.basename sp]) 1 ≠ renameCandidate (D ++ [Path.basename sp]) 2 := by
  have hif : (if True then (D ++ [Path.basename sp]) else D) = (D ++ [Path.basename sp]) :=
    if_pos trivial
  have hdp1 : renameCandidate (D ++ [Path.basename sp]) 1 ≠ (D ++ [Path.basename sp]) := renameCandidate_ne_self (D ++ [Path.basename sp]) 1
  have hdp2 : renameCandidate (D ++ [Path.basename sp]) 2 ≠ (D ++ [Path.basename sp]) := renameCandidate_ne_self (D ++ [Path.basename sp]) 2
  have h12 : renameCandidate (D ++ [Path.basename sp]) 1 ≠ renameCandidate (D ++ [Path.basename sp]) 2 := by
    intro hh
    have := renameCandidate_injective (D ++ [Path.basename sp]) hh
    omega
  have hlen1 : D.length < (renameCandidate (D ++ [Path.basename sp]) 1).length := by
    rw [renameCandidate_concat]
    simp
  have hlen2 : D.length < (renameCandidate (D ++ [Path.basename sp]) 2).length := by
    rw [renameCandidate_concat]
    simp
  have e1 : r1 = (FS.set (FS.mkdirp fs0 D) (D ++ [Path.basename sp]) (Entry.file c),
      [Outcome.copied sp (D ++ [Path.basename sp])]) := by
    rw [hr1]
    simp only [copyItem, copyTree]
    rw [hif, h0, List.dropLast_concat]
  have s1dp : FS.stat r1.1 (D ++ [Path.basename sp]) = some (Entry.file c) := by
    rw [e1]
    exact stat_set_self _ _ _
  have s1c1 : FS.stat r1.1 (renameCandidate (D ++ [Path.basename sp]) 1) = none := by
    rw [e1]
    show FS.stat (FS.set (FS.mkdirp fs0 D) (D ++ [Path.basename sp]) (Entry.file c)) _ = none
    rw [stat_set_ne _ _ _ _ hdp1, stat_mkdirp_of_longer hlen1]
    exact h1
  have s1c2 : FS.stat r1.1 (renameCandidate (D ++ [Path.basename sp]) 2) = none := by
    rw [e1]
    show FS.stat (FS.set (FS.mkdirp fs0 D) (D ++ [Path.basename sp]) (Entry.file c)) _ = none
    rw [stat_set_ne _ _ _ _ hdp2, stat_mkdirp_of_longer hlen2]
    exact h2
  have u2 : getUniqueFileName r1.1 (D ++ [Path.basename sp]) = renameCandidate (D ++ [Path.basename sp]) 1 :=
    getUniqueFileName_one (by rw [s1dp]; rfl) s1c1
  have e2 : r2 = (FS.set r1.1 (renameCandidate (D ++ [Path.basename sp]) 1) (Entry.file c),
      [Outcome.renamed sp (renameCandidate (D ++ [Path.basename sp]) 1)]) := by
    rw [hr2]
    simp only [copyItem, copyTree]
    rw [hif, s1dp]
    simp [u2]
  have s2dp : FS.stat r2.1 (D ++ [Path.basename sp]) = some (Entry.file c) := by
    rw [e2]
    show FS.stat (FS.set r1.1 (renameCandidate (D ++ [Path.basename sp]) 1) (Entry.file c)) _ = _
    rw [stat_set_ne _ _ _ _ (Ne.symm hdp1)]
    exact s1dp
  have s2c1 : FS.stat r2.1 (renameCandidate (D ++ [Path.basename sp]) 1) = some (Entry.file c) := by
    rw [e2]
    exact stat_set_self _ _ _
  have s2c2 : FS.stat r2.1 (renameCandidate (D ++ [Path.basename sp]) 2) = none := by
    rw [e2]
    show FS.stat (FS.set r1.1 (renameCandidate (D ++ [Path.basename sp]) 1) (Entry.file c)) _ = none
    rw [stat_set_ne _ _ _ _ (Ne.symm h12)]
    exact s1c2
  have u3 : getUniqueFileName r2.1 (D ++ [Path.basename sp]) = renameCandidate (D ++ [Path.basename sp]) 2 :=
    getUniqueFileName_two (by rw [s2dp]; rfl) (by rw [s2c1]; rfl) s2c2
  have e3 : r3 = (FS.set r2.1 (renameCandidate (D ++ [Path.basename sp]) 2) (Entry.file c),
      [Outcome.renamed sp (renameCandidate (D ++ [Path.basename sp]) 2)]) := by
    rw [hr3]
    simp only [copyItem, copyTree]
    rw [hif, s2dp]
    simp [u3]
  have d1 : decimalRepr 1 = "1" := by decide
  have d2 : decimalRepr 2 = "2" := by decide
  refine ⟨by rw [e1], by rw [e2], by rw [e3], ?_, ?_, ?_, ?_, ?_, hdp1, hdp2, h12⟩
  · rw [e3]
    show FS.stat (FS.set r2.1 (renameCandidate (D ++ [Path.basename sp]) 2) (Entry.file c)) _ = _
    rw [stat_set_ne _ _ _ _ (Ne.symm hdp2)]
    exact s2dp
  · rw [e3]
    show FS.stat (FS.set r2.1 (renameCandidate (D ++ [Path.basename sp]) 2) (Entry.file c)) _ = _
    rw [stat_set_ne _ _ _ _ h12]
    exact s2c1
  · rw [e3]
    exact stat_set_self _ _ _
  · rw [renameCandidate_concat, d1]
  · rw [renameCandidate_concat, d2]

/-- Witness for C3: the three-run rename sequence on a concrete file,
producing `dist/f.txt`, `dist/f_1.txt` and `dist/f_2.txt` with the source
content. -/
theorem claim_C3_witness :
    (copyItem ["src", "f.txt"] (some (FTree.file "data")) ["dist"] 0 0 true
       "rename" 0 []).2 = [Outcome.copied ["src", "f.txt"] ["dist", "f.txt"]]
    ∧ FS.stat (copyItem ["src", "f.txt"] (some (FTree.file "data")) ["dist"] 0 0 true
        "rename" 0 (copyItem ["src", "f.txt"] (some (FTree.file "data")) ["dist"] 0 0
          true "rename" 0 (copyItem ["src", "f.txt"] (some (FTree.file "data"))
            ["dist"] 0 0 true "rename" 0 []).1).1).1 ["dist", "f_1.txt"]
      = some (Entry.file "data")
    ∧ FS.stat (copyItem ["src", "f.txt"] (some (FTree.file "data")) ["dist"] 0 0 true
        "rename" 0 (copyItem ["src", "f.txt"] (some (FTree.file "data")) ["dist"] 0 0
          true "rename" 0 (copyItem ["src", "f.txt"] (some (FTree.file "data"))
            ["dist"] 0 0 true "rename" 0 []).1).1).1 ["dist", "f_2.txt"]
      = some (Entry.file "data") := by
  have main := claim_C3_rename_sequence ["src", "f.txt"] ["dist"] "data" []
    (copyItem ["src", "f.txt"] (some (FTree.file "data")) ["dist"] 0 0 true
      "rename" 0 [])
    (copyItem ["src", "f.txt"] (some (FTree.file "data")) ["dist"] 0 0 true
      "rename" 0 (copyItem ["src", "f.txt"] (some (FTree.file "data")) ["dist"] 0 0
        true "rename" 0 []).1)
    (copyItem ["src", "f.txt"] (some (FTree.file "data")) ["dist"] 0 0 true
      "rename" 0 (copyItem ["src", "f.txt"] (some (FTree.file "data")) ["dist"] 0 0
        true "rename" 0 (copyItem ["src", "f.txt"] (some (FTree.file "data"))
          ["dist"] 0 0 true "rename" 0 []).1).1)
    (by decide) (by decide) (by decide) rfl rfl rfl
  refine ⟨?_, ?_, ?_⟩
  · have h := main.1
    rwa [show (["dist"] ++ [Path.basename ["src", "f.txt"]]) = ["dist", "f.txt"]
      from rfl] at h
  · have h := main.2.2.2.2.1
    rwa [show renameCandidate (["dist"] ++ [Path.basename ["src", "f.txt"]]) 1
      = ["dist", "f_1.txt"] from by decide] at h
  · have h := main.2.2.2.2.2.1
    rwa [show renameCandidate (["dist"] ++ [Path.basename ["src", "f.txt"]]) 2
      = ["dist", "f_2.txt"] from by decide] at h

/-! ## Sequential decomposition of the processing loops -/

theorem copy_append (resolve : Path → Option FTree) (ts1 ts2 : List CopyTask)
    (fs : FS) :
    copy resolve (ts1 ++ ts2) fs
      = ((copy resolve ts2 (copy resolve ts1 fs).1).1,
         (copy resolve ts1 fs).2 ++ (copy resolve ts2 (copy resolve ts1 fs).1).2) := by
  induction ts1 generalizing fs with
  | nil => simp [copy]
  | cons t ts ih => simp [copy, ih]

theorem runSources_append (resolve : Path → Option FTree) (ss1 ss2 : List Path)
    (dest : Path) (depth height : Nat) (fl : Bool) (pol : String) (fs : FS) :
    runSources resolve (ss1 ++ ss2) dest depth height fl pol fs
      = ((runSources resolve ss2 dest depth height fl pol
            (runSources resolve ss1 dest depth height fl pol fs).1).1,
         (runSources resolve ss1 dest depth height fl pol fs).2
           ++ (runSources resolve ss2 dest depth height fl pol
            (runSources resolve ss1 dest depth height fl pol fs).1).2) := by
  induction ss1 generalizing fs with
  | nil => simp [runSources]
  | cons sPath ss ih => simp [runSources, ih]

theorem processEntries_append (sp : Path) (es1 es2 : List (String × FTree))
    (dest : Path) (depth height : Nat) (fl : Bool) (pol : String) (cd : Nat)
    (fs : FS) :
    processEntries sp (es1 ++ es2) dest depth height fl pol cd fs
      = ((processEntries sp es2 dest depth height fl pol cd
            (processEntries sp es1 dest depth height fl pol cd fs).1).1,
         (processEntries sp es1 dest depth height fl pol cd fs).2
           ++ (processEntries sp es2 dest depth height fl pol cd
            (processEntries sp es1 dest depth height fl pol cd fs).1).2) := by
  induction es1 generalizing fs with
  | nil => simp [processEntries]
  | cons e es ih =>
    cases e
    simp [processEntries, ih]

/-- C6: failure containment and continuation.  A missing source, a kind
conflict and an unknown conflict-resolution value each produce exactly one
Failed outcome and leave the filesystem state unchanged, and the three
processing loops (task list, multi-source list, directory entries)
decompose sequentially over list concatenation, so a failure inside any
prefix never prevents the remaining siblings from being processed; `copy`
is a total function, so the invocation always runs to completion. -/
theorem claim_C6_failure_isolation :
    (∀ (resolve : Path → Option FTree) (ts1 ts2 : List CopyTask) (fs : FS),
      copy resolve (ts1 ++ ts2) fs
        = ((copy resolve ts2 (copy resolve ts1 fs).1).1,
           (copy resolve ts1 fs).2 ++ (copy resolve ts2 (copy resolve ts1 fs).1).2))
    ∧ (∀ (resolve : Path → Option FTree) (ss1 ss2 : List Path) (dest : Path)
        (depth height : Nat) (fl : Bool) (pol : String) (fs : FS),
      runSources resolve (ss1 ++ ss2) dest depth height fl pol fs
        = ((runSources resolve ss2 dest depth height fl pol
              (runSources resolve ss1 dest depth height fl pol fs).1).1,
           (runSources resolve ss1 dest depth height fl pol fs).2
             ++ (runSources resolve ss2 dest depth height fl pol
              (runSources resolve ss1 dest depth height fl pol fs).1).2))
    ∧ (∀ (sp : Path) (es1 es2 : List (String × FTree)) (dest : Path)
        (depth height : Nat) (fl : Bool) (pol : String) (cd : Nat) (fs : FS),
      processEntries sp (es1 ++ es2) dest depth height fl pol cd fs
        = ((processEntries sp es2 dest depth height fl pol cd
              (processEntries sp es1 dest depth height fl pol cd fs).1).1,
           (processEntries sp es1 dest depth height fl pol cd fs).2
             ++ (processEntries sp es2 dest depth height fl pol cd
              (processEntries sp es1 dest depth height fl pol cd fs).1).2))
    ∧ (∀ (sp dest : Path) (depth height : Nat) (fl : Bool) (pol : String)
        (cd : Nat) (fs : FS),
      copyItem sp none dest depth height fl pol cd fs
        = (fs, [Outcome.failed sp noSourceMsg]))
    ∧ (∀ (sp : Path) (c : String) (dest : Path) (depth height : Nat) (fl : Bool)
        (pol : String) (cd : Nat) (fs : FS),
      FS.stat fs (if fl then dest ++ [Path.basename sp] else dest) = some Entry.dir →
      copyItem sp (some (FTree.file c)) dest depth height fl pol cd fs
        = (fs, [Outcome.failed sp fileConflictMsg]))
    ∧ (∀ (sp : Path) (es : List (String × FTree)) (dest : Path)
        (depth height : Nat) (pol : String) (fs : FS) (w : String),
      FS.stat fs dest = some (Entry.file w) →
      copyItem sp (some (FTree.dir es)) dest depth height false pol 0 fs
        = (fs, [Outcome.failed sp mkdirConflictMsg]))
    ∧ (∀ (sp : Path) (c : String) (dest : Path) (depth height : Nat) (fl : Bool)
        (pol : String) (cd : Nat) (fs : FS) (w : String),
      FS.stat fs (if fl then dest ++ [Path.basename sp] else dest)
          = some (Entry.file w) →
      pol ≠ "overwrite" → pol ≠ "skip" → pol ≠ "rename" →
      copyItem sp (some (FTree.file c)) dest depth height fl pol cd fs
        = (fs, [Outcome.failed sp unknownPolicyMsg])) := by
  refine ⟨copy_append, runSources_append, processEntries_append,
    fun sp dest depth height fl pol cd fs => rfl, ?_, ?_, ?_⟩
  · intro sp c dest depth height fl pol cd fs h
    simp only [copyItem, copyTree]
    rw [h]
  · intro sp es dest depth height pol fs w h
    have g1 : ¬ (depth > 0 ∧ (0 : Nat) ≥ depth) := by omega
    have g2 : ¬ (height > 0 ∧ (0 : Nat) ≥ height) := by omega
    simp only [copyItem, copyTree]
    rw [if_neg g1, if_neg g2]
    simp [h]
  · intro sp c dest depth height fl pol cd fs w h h1 h2 h3
    simp only [copyItem, copyTree]
    rw [h]
    simp [h1, h2, h3]

/-- Witness for C6: a two-task run where the first task's source is missing
still processes the second task, reporting the failure and the copy, and
the conflict cases at concrete inputs leave the filesystem unchanged. -/
theorem claim_C6_witness :
    copy (fun p => if p = ["s2"] then some (FTree.file "c") else none)
        ([⟨SrcSpec.single ["s1"], ["d"], 0, 0, true, "overwrite"⟩]
          ++ [⟨SrcSpec.single ["s2"], ["d"], 0, 0, true, "overwrite"⟩]) []
      = ((copy (fun p => if p = ["s2"] then some (FTree.file "c") else none)
            [⟨SrcSpec.single ["s2"], ["d"], 0, 0, true, "overwrite"⟩]
            (copy (fun p => if p = ["s2"] then some (FTree.file "c") else none)
              [⟨SrcSpec.single ["s1"], ["d"], 0, 0, true, "overwrite"⟩] []).1).1,
         (copy (fun p => if p = ["s2"] then some (FTree.file "c") else none)
            [⟨SrcSpec.single ["s1"], ["d"], 0, 0, true, "overwrite"⟩] []).2
           ++ (copy (fun p => if p = ["s2"] then some (FTree.file "c") else none)
            [⟨SrcSpec.single ["s2"], ["d"], 0, 0, true, "overwrite"⟩]
            (copy (fun p => if p = ["s2"] then some (FTree.file "c") else none)
              [⟨SrcSpec.single ["s1"], ["d"], 0, 0, true, "overwrite"⟩] []).1).2)
    ∧ copyItem ["s1"] none ["d"] 0 0 true "overwrite" 0 []
      = ([], [Outcome.failed ["s1"] noSourceMsg])
    ∧ copyItem ["s", "f"] (some (FTree.file "c")) ["d"] 0 0 false "bad" 0
        [(["d"], Entry.file "w")]
      = ([(["d"], Entry.file "w")], [Outcome.failed ["s", "f"] unknownPolicyMsg]) :=
  ⟨claim_C6_failure_isolation.1 (fun p => if p = ["s2"] then some (FTree.file "c") else none)
      [⟨SrcSpec.single ["s1"], ["d"], 0, 0, true, "overwrite"⟩]
      [⟨SrcSpec.single ["s2"], ["d"], 0, 0, true, "overwrite"⟩] [],
   claim_C6_failure_isolation.2.2.2.1 ["s1"] ["d"] 0 0 true "overwrite" 0 [],
   claim_C6_failure_isolation.2.2.2.2.2.2 ["s", "f"] "c" ["d"] 0 0 false "bad" 0
     [(["d"], Entry.file "w")] "w" (by decide) (by decide) (by decide) (by decide)⟩

/-! ## Depth bound and write provenance -/

/-- Exhaustive case shapes of the file branch of the copier. -/
theorem copyTree_file_cases (sp dest : Path) (cc : String) (depth height cd : Nat)
    (fl : Bool) (pol : String) (fs : FS) :
    copyTree sp (FTree.file cc) dest depth height fl pol cd fs = (fs, [Outcome.failed sp fileConflictMsg])
    ∨ copyTree sp (FTree.file cc) dest depth height fl pol cd fs = (fs, [Outcome.skipped sp])
    ∨ copyTree sp (FTree.file cc) dest depth height fl pol cd fs = (fs, [Outcome.failed sp unknownPolicyMsg])
    ∨ copyTree sp (FTree.file cc) dest depth height fl pol cd fs = (FS.set fs (if fl = true then dest ++ [Path.basename sp] else dest) (Entry.file cc), [Outcome.overwritten sp (if fl = true then dest ++ [Path.basename sp] else dest)])
    ∨ copyTree sp (FTree.file cc) dest depth height fl pol cd fs = (FS.set fs (getUniqueFileName fs (if fl = true then dest ++ [Path.basename sp] else dest)) (Entry.file cc),
        [Outcome.renamed sp (getUniqueFileName fs (if fl = true then dest ++ [Path.basename sp] else dest))])
    ∨ copyTree sp (FTree.file cc) dest depth height fl pol cd fs = (FS.set (FS.mkdirp fs (List.dropLast (if fl = true then dest ++ [Path.basename sp] else dest))) (if fl = true then dest ++ [Path.basename sp] else dest) (Entry.file cc),
        [Outcome.copied sp (if fl = true then dest ++ [Path.basename sp] else dest)]) := by
  simp only [copyTree]
  rcases hstat : FS.stat fs (if fl = true then dest ++ [Path.basename sp] else dest) with _ | e
  · exact Or.inr (Or.inr (Or.inr (Or.inr (Or.inr rfl))))
  · cases e with
    | dir => exact Or.inl rfl
    | file w =>
      dsimp only
      by_cases p1 : pol = "overwrite"
      · rw [if_pos p1]
        exact Or.inr (Or.inr (Or.inr (Or.inl rfl)))
      · rw [if_neg p1]
        by_cases p2 : pol = "skip"
        · rw [if_pos p2]
          exact Or.inr (Or.inl rfl)
        · rw [if_neg p2]
          by_cases p3 : pol = "rename"
          · rw [if_pos p3]
            exact Or.inr (Or.inr (Or.inr (Or.inr (Or.inl rfl))))
          · rw [if_neg p3]
            exact Or.inr (Or.inr (Or.inl rfl))

/-- Exhaustive case shapes of the directory branch of the copier. -/
theorem copyTree_dir_cases (sp dest : Path) (es : List (String × FTree))
    (depth height cd : Nat) (fl : Bool) (pol : String) (fs : FS) :
    copyTree sp (FTree.dir es) dest depth height fl pol cd fs = (fs, [])
    ∨ copyTree sp (FTree.dir es) dest depth height fl pol cd fs
        = (fs, [Outcome.failed sp mkdirConflictMsg])
    ∨ (copyTree sp (FTree.dir es) dest depth height fl pol cd fs
          = processEntries sp es dest depth height fl pol cd fs
        ∧ ¬ (depth > 0 ∧ cd ≥ depth))
    ∨ (copyTree sp (FTree.dir es) dest depth height fl pol cd fs
          = processEntries sp es dest depth height fl pol cd (FS.mkdirp fs dest)
        ∧ ¬ (depth > 0 ∧ cd ≥ depth)) := by
  simp only [copyTree]
  by_cases g1 : depth > 0 ∧ cd ≥ depth
  · rw [if_pos g1]
    exact Or.inl rfl
  · rw [if_neg g1]
    by_cases g2 : height > 0 ∧ cd ≥ height
    · rw [if_pos g2]
      exact Or.inl rfl
    · rw [if_neg g2]
      by_cases g3 : es.length = 0 ∧ fl = true
      · rw [if_pos g3]
        exact Or.inl rfl
      · rw [if_neg g3]
        by_cases g4 : fl = true
        · rw [if_pos g4]
          exact Or.inr (Or.inr (Or.inl ⟨rfl, g1⟩))
        · rw [if_neg g4]
          rcases hstat : FS.stat fs dest with _ | e
          · exact Or.inr (Or.inr (Or.inr ⟨rfl, g1⟩))
          · cases e with
            | file w => exact Or.inr (Or.inl rfl)
            | dir => exact Or.inr (Or.inr (Or.inl ⟨rfl, g1⟩))

theorem copyTree_file_outcome_src (sp dest : Path) (cc : String)
    (depth height cd : Nat) (fl : Bool) (pol : String) (fs : FS) :
    ∀ o ∈ (copyTree sp (FTree.file cc) dest depth height fl pol cd fs).2, Outcome.src o = sp := by
  intro o ho
  rcases copyTree_file_cases sp dest cc depth height cd fl pol fs with
    h | h | h | h | h | h <;> rw [h] at ho <;> simp at ho <;> rw [ho] <;> rfl

theorem outcome_src_length_bound :
    (∀ t : FTree, ∀ (sp dest : Path) (depth height cd : Nat) (fl : Bool)
      (pol : String) (fs : FS), 0 < depth → cd ≤ depth →
      ∀ o ∈ (copyTree sp t dest depth height fl pol cd fs).2,
        (Outcome.src o).length ≤ sp.length + (depth - cd))
    ∧ (∀ es : List (String × FTree), ∀ (sp dest : Path) (depth height cd : Nat)
      (fl : Bool) (pol : String) (fs : FS), 0 < depth → cd < depth →
      ∀ o ∈ (processEntries sp es dest depth height fl pol cd fs).2,
        (Outcome.src o).length ≤ sp.length + (depth - cd)) := by
  apply treeInd2
  · intro cc sp dest depth height cd fl pol fs hd hcd o ho
    rw [copyTree_file_outcome_src sp dest cc depth height cd fl pol fs o ho]
    omega
  · intro es ih sp dest depth height cd fl pol fs hd hcd o ho
    rcases copyTree_dir_cases sp dest es depth height cd fl pol fs with
      h | h | ⟨h, hg⟩ | ⟨h, hg⟩
    · rw [h] at ho
      simp at ho
    · rw [h] at ho
      simp at ho
      rw [ho]
      simp [Outcome.src]
    · rw [h] at ho
      exact ih sp dest depth height cd fl pol fs hd (by omega) o ho
    · rw [h] at ho
      exact ih sp dest depth height cd fl pol (FS.mkdirp fs dest) hd (by omega) o ho
  · intro sp dest depth height cd fl pol fs hd hcd o ho
    simp [processEntries] at ho
  · intro n t rest iht ihrest sp dest depth height cd fl pol fs hd hcd o ho
    simp only [processEntries] at ho
    rcases List.mem_append.mp ho with h | h
    · have hb := iht (sp ++ [n])
        (if fl = true then dest ++ [baseNameStr n] else dest ++ [n]) depth height
        (cd + 1) fl pol fs hd (by omega) o h
      simp only [List.length_append, List.length_singleton] at hb
      omega
    · exact ihrest sp dest depth height cd fl pol
        (copyTree (sp ++ [n]) t
          (if fl = true then dest ++ [baseNameStr n] else dest ++ [n]) depth height
          fl pol (cd + 1) fs).1 hd hcd o h

theorem file_write_provenance :
    (∀ t : FTree, ∀ (sp dest : Path) (depth height cd : Nat) (fl : Bool)
      (pol : String) (fs : FS) (q : Path) (c : String),
      FS.stat (copyTree sp t dest depth height fl pol cd fs).1 q
          = some (Entry.file c) →
      FS.stat fs q = some (Entry.file c)
        ∨ ∃ o ∈ (copyTree sp t dest depth height fl pol cd fs).2,
            Outcome.isWriteTo o q)
    ∧ (∀ es : List (String × FTree), ∀ (sp dest : Path) (depth height cd : Nat)
      (fl : Bool) (pol : String) (fs : FS) (q : Path) (c : String),
      FS.stat (processEntries sp es dest depth height fl pol cd fs).1 q
          = some (Entry.file c) →
      FS.stat fs q = some (Entry.file c)
        ∨ ∃ o ∈ (processEntries sp es dest depth height fl pol cd fs).2,
            Outcome.isWriteTo o q) := by
  apply treeInd2
  · intro cc sp dest depth height cd fl pol fs q c hq
    rcases copyTree_file_cases sp dest cc depth height cd fl pol fs with
      h | h | h | h | h | h
    · rw [h] at hq ⊢
      exact Or.inl hq
    · rw [h] at hq ⊢
      exact Or.inl hq
    · rw [h] at hq ⊢
      exact Or.inl hq
    · rw [h] at hq ⊢
      by_cases hqd : q = (if fl = true then dest ++ [Path.basename sp] else dest)
      · right
        exact ⟨Outcome.overwritten sp (if fl = true then dest ++ [Path.basename sp] else dest), List.mem_singleton.mpr rfl,
          by simp [Outcome.isWriteTo, hqd]⟩
      · rw [show ((FS.set fs (if fl = true then dest ++ [Path.basename sp] else dest) (Entry.file cc), [Outcome.overwritten sp (if fl = true then dest ++ [Path.basename sp] else dest)]) :
            FS × List Outcome).1 = FS.set fs (if fl = true then dest ++ [Path.basename sp] else dest) (Entry.file cc) from rfl,
          stat_set_ne _ _ _ _ hqd] at hq
        exact Or.inl hq
    · rw [h] at hq ⊢
      by_cases hqd : q = getUniqueFileName fs (if fl = true then dest ++ [Path.basename sp] else dest)
      · right
        exact ⟨Outcome.renamed sp (getUniqueFileName fs (if fl = true then dest ++ [Path.basename sp] else dest)),
          List.mem_singleton.mpr rfl, by simp [Outcome.isWriteTo, hqd]⟩
      · rw [show ((FS.set fs (getUniqueFileName fs (if fl = true then dest ++ [Path.basename sp] else dest)) (Entry.file cc),
              [Outcome.renamed sp (getUniqueFileName fs (if fl = true then dest ++ [Path.basename sp] else dest))]) :
            FS × List Outcome).1
            = FS.set fs (getUniqueFileName fs (if fl = true then dest ++ [Path.basename sp] else dest)) (Entry.file cc) from rfl,
          stat_set_ne _ _ _ _ hqd] at hq
        exact Or.inl hq
    · rw [h] at hq ⊢
      by_cases hqd : q = (if fl = true then dest ++ [Path.basename sp] else dest)
      · right
        exact ⟨Outcome.copied sp (if fl = true then dest ++ [Path.basename sp] else dest), List.mem_singleton.mpr rfl,
          by simp [Outcome.isWriteTo, hqd]⟩
      · rw [show ((FS.set (FS.mkdirp fs (List.dropLast (if fl = true then dest ++ [Path.basename sp] else dest))) (if fl = true then dest ++ [Path.basename sp] else dest) (Entry.file cc),
              [Outcome.copied sp (if fl = true then dest ++ [Path.basename sp] else dest)]) : FS × List Outcome).1
            = FS.set (FS.mkdirp fs (List.dropLast (if fl = true then dest ++ [Path.basename sp] else dest))) (if fl = true then dest ++ [Path.basename sp] else dest) (Entry.file cc)
            from rfl, stat_set_ne _ _ _ _ hqd] at hq
        exact Or.inl (stat_mkdirp_file hq)
  · intro es ih sp dest depth height cd fl pol fs q c hq
    rcases copyTree_dir_cases sp dest es depth height cd fl pol fs with
      h | h | ⟨h, _⟩ | ⟨h, _⟩
    · rw [h] at hq ⊢
      exact Or.inl hq
    · rw [h] at hq ⊢
      exact Or.inl hq
    · rw [h] at hq ⊢
      exact ih sp dest depth height cd fl pol fs q c hq
    · rw [h] at hq ⊢
      rcases ih sp dest depth height cd fl pol (FS.mkdirp fs dest) q c hq with
        h2 | h2
      · exact Or.inl (stat_mkdirp_file h2)
      · exact Or.inr h2
  · intro sp dest depth height cd fl pol fs q c hq
    exact Or.inl hq
  · intro n t rest iht ihrest sp dest depth height cd fl pol fs q c hq
    simp only [processEntries] at hq ⊢
    rcases ihrest sp dest depth height cd fl pol
        (copyTree (sp ++ [n]) t
          (if fl = true then dest ++ [baseNameStr n] else dest ++ [n]) depth height
          fl pol (cd + 1) fs).1 q c hq with h | ⟨o, ho, hw⟩
    · rcases iht (sp ++ [n])
          (if fl = true then dest ++ [baseNameStr n] else dest ++ [n]) depth height
          (cd + 1) fl pol fs q c h with h2 | ⟨o, ho, hw⟩
      · exact Or.inl h2
      · exact Or.inr ⟨o, List.mem_append.mpr (Or.inl ho), hw⟩
    · exact Or.inr ⟨o, List.mem_append.mpr (Or.inr ho), hw⟩

/-- C2 amended: with `maxDepth = d > 0`, no file originally at nesting
level strictly greater than `d` appears in the destination.  Formally:
every file present in the final state either was already present or was
written by an outcome whose source path extends the task root path by at
most `d` segments — files at nesting level `≥ d + 1` have strictly longer
source paths, so they are never written.  The original claim's bound `≥ d`
is off by one: files at level exactly `d` are copied (see the
counterexample theorem). -/
theorem claim_C2_amended_depth_bound (sp : Path) (t : FTree) (dest : Path)
    (d hgt : Nat) (fl : Bool) (pol : String) (fs : FS) (q : Path) (c : String)
    (hd : 0 < d)
    (hq : FS.stat (copyItem sp (some t) dest d hgt fl pol 0 fs).1 q
      = some (Entry.file c)) :
    FS.stat fs q = some (Entry.file c)
    ∨ ∃ o ∈ (copyItem sp (some t) dest d hgt fl pol 0 fs).2,
        Outcome.isWriteTo o q ∧ (Outcome.src o).length ≤ sp.length + d := by
  rcases file_write_provenance.1 t sp dest d hgt 0 fl pol fs q c hq with
    h1 | ⟨o, ho, hw⟩
  · exact Or.inl h1
  · right
    refine ⟨o, ho, hw, ?_⟩
    have := outcome_src_length_bound.1 t sp dest d hgt 0 fl pol fs hd (by omega) o ho
    simpa using this

/-- Witness for C2 amended: at the counterexample input the file that does
appear is accounted for by a write whose source sits at level 1 ≤ d. -/
theorem claim_C2_amended_witness :
    FS.stat ([] : FS) ["out", "a", "x.txt"] = some (Entry.file "1")
    ∨ ∃ o ∈ (copyItem ["a"] (some (FTree.dir [("x.txt", FTree.file "1")]))
        ["out", "a"] 1 0 false "overwrite" 0 []).2,
        Outcome.isWriteTo o ["out", "a", "x.txt"]
          ∧ (Outcome.src o).length ≤ (["a"] : Path).length + 1 :=
  claim_C2_amended_depth_bound ["a"] (FTree.dir [("x.txt", FTree.file "1")])
    ["out", "a"] 1 0 false "overwrite" [] ["out", "a", "x.txt"] "1" (by decide)
    (by decide)

end CopyRec





